import Mathlib

/-!
Verification of the transform-domain steganography engine.

Shallow embedding of the bit-embedding/extraction core of the repository
(`dct_stego.py`, `svd_stego.py`, `wavelet_stego.py`, `dft_stego.py`,
`audio_dct_stego.py`, `reliable_stego.py`, `stego_base.py`, `main.py`).
Floating-point coefficients are modelled as rationals; the forward/inverse
numeric transforms (cv2.dct, np.linalg.svd, pywt.dwt2, cv2.dft) are external
library collaborators, so the pipelines are modelled at the coefficient
level: the carrier is the ordered list of target coefficients that the
source's block scan visits, and the transform round trip is exact.
Python's `x % 1.0` (for the positive modulus used here) is `Int.fract`,
`math.floor`/`np.floor` are `Int.floor`, `int(x)` truncates toward zero,
and the built-in `round` rounds half to even; each is modelled explicitly.
-/

/-! ## Python numeric primitives -/

/-- Python `int(q)`: truncation toward zero. -/
def pyInt (q : ℚ) : ℤ := if 0 ≤ q then ⌊q⌋ else -⌊-q⌋

/-- Python built-in `round(q)` (also `np.round`): nearest integer, ties to even. -/
def pyRound (q : ℚ) : ℤ :=
  if Int.fract q < 1/2 then ⌊q⌋
  else if 1/2 < Int.fract q then ⌊q⌋ + 1
  else if ⌊q⌋ % 2 = 0 then ⌊q⌋ else ⌊q⌋ + 1

theorem pyInt_of_nonneg (q : ℚ) (h : 0 ≤ q) : pyInt q = ⌊q⌋ := by
  simp [pyInt, h]

/-- Distance from `q` to `pyRound q` is the distance to the nearest integer,
whatever the tie-breaking: `min (fract q) (1 - fract q)`. -/
theorem abs_sub_pyRound (q : ℚ) :
    |q - (pyRound q : ℚ)| = min (Int.fract q) (1 - Int.fract q) := by
  have hf0 : 0 ≤ Int.fract q := Int.fract_nonneg q
  have hf1 : Int.fract q < 1 := Int.fract_lt_one q
  have hq : q - (⌊q⌋ : ℚ) = Int.fract q := by rw [Int.fract]
  unfold pyRound
  split_ifs with h1 h2 h3
  · rw [abs_of_nonneg (by rw [hq]; exact hf0)]
    rw [hq]
    rw [min_eq_left (by linarith)]
  · have : q - ((⌊q⌋ : ℤ) + 1 : ℤ) = Int.fract q - 1 := by
      push_cast
      rw [Int.fract]
      ring
    rw [this, abs_of_nonpos (by linarith)]
    rw [min_eq_right (by linarith)]
    ring
  · have h12 : Int.fract q = 1/2 := le_antisymm (not_lt.mp h2) (not_lt.mp h1)
    rw [abs_of_nonneg (by rw [hq]; linarith)]
    rw [hq, h12]
    norm_num
  · have h12 : Int.fract q = 1/2 := le_antisymm (not_lt.mp h2) (not_lt.mp h1)
    have : q - ((⌊q⌋ : ℤ) + 1 : ℤ) = Int.fract q - 1 := by
      push_cast
      rw [Int.fract]
      ring
    rw [this, abs_of_nonpos (by linarith), h12]
    norm_num

/-! ## Bit-level message framing

`dct_stego.py` lines 21-22: `''.join(format(ord(c), '08b') for c in message)`
followed by the 8-zero terminator. Bits are `Bool` (`true` = '1'). -/

/-- `format(n, '08b')`: the 8 low bits of `n`, most significant first. -/
def byteToBits (n : ℕ) : List Bool :=
  (List.range 8).map (fun i => n.testBit (7 - i))

/-- Message character codes to the concatenated bit string (no terminator). -/
def messageBits (m : List ℕ) : List Bool :=
  (m.map byteToBits).flatten

/-- The 8-zero terminator appended by every encoder. -/
def terminatorBits : List Bool := List.replicate 8 false

/-- `message_to_binary`: message bits followed by the terminator byte. -/
def messageToBinary (m : List ℕ) : List Bool :=
  messageBits m ++ terminatorBits

/-- `int(''.join(bits), 2)`: bit list (MSB first) to its numeric value. -/
def bitsVal (bs : List Bool) : ℕ :=
  bs.foldl (fun a b => 2 * a + (if b then 1 else 0)) 0

set_option maxRecDepth 4096 in
theorem bitsVal_byteToBits (c : ℕ) (h : c < 256) : bitsVal (byteToBits c) = c := by
  revert h
  revert c
  decide

/-! ## Quantization primitives, per variant (translated from each decode/encode)

The sources drift: `dct_stego.py` and `dft_stego.py` embed with `floor`
quantization and read with the strict band `0.25 < r < 0.75`;
`svd_stego.py` embeds with `int(...)` truncation and reads with
`0.3 < r < 0.7`; `wavelet_stego.py` embeds with `round` and reads with
`0.2 < r < 0.8`; `audio_dct_stego.py` embeds with `round` and reads via
the distance `|ratio - round(ratio)| < 0.25`. -/

/-- `dct_stego.py` lines 58-63: floor-quantization write of one bit. -/
def dctWriteBit (c : ℚ) (b : Bool) (s : ℚ) : ℚ :=
  if b then s * ⌊c / s⌋ + s / 2 else s * ⌊c / s⌋

/-- `dct_stego.py` lines 124-132: `remainder = abs((c / qf) % 1.0)`,
bit 1 iff `0.25 < remainder < 0.75`. -/
def dctReadBit (c : ℚ) (s : ℚ) : Bool :=
  let remainder := |Int.fract (c / s)|
  if 1/4 < remainder ∧ remainder < 3/4 then true else false

/-- `svd_stego.py` lines 64-69: truncation-quantization write on `S[0]`. -/
def svdWriteBit (c : ℚ) (b : Bool) (s : ℚ) : ℚ :=
  if b then s * ((pyInt (c / s) : ℚ) + 1/2) else s * (pyInt (c / s) : ℚ)

/-- `svd_stego.py` lines 166-173: `remainder = ratio - int(ratio)`,
bit 1 iff `0.3 < remainder < 0.7`. -/
def svdReadBit (c : ℚ) (s : ℚ) : Bool :=
  let ratio := c / s
  let remainder := ratio - (pyInt ratio : ℚ)
  if 3/10 < remainder ∧ remainder < 7/10 then true else false

/-- `wavelet_stego.py` lines 53-58: round-quantization write on `cH[y, x]`. -/
def waveletWriteBit (c : ℚ) (b : Bool) (s : ℚ) : ℚ :=
  if b then (pyRound (c / s) : ℚ) * s + s / 2 else (pyRound (c / s) : ℚ) * s

/-- `wavelet_stego.py` lines 115-125: `remainder = abs((c / threshold) % 1.0)`,
bit 1 iff `0.2 < remainder < 0.8`. -/
def waveletReadBit (c : ℚ) (s : ℚ) : Bool :=
  let remainder := |Int.fract (c / s)|
  if 1/5 < remainder ∧ remainder < 4/5 then true else false

/-- `dft_stego.py` lines 75-78: floor-quantization write on the magnitude. -/
def dftWriteBit (c : ℚ) (b : Bool) (s : ℚ) : ℚ :=
  if b then s * ⌊c / s⌋ + s / 2 else s * ⌊c / s⌋

/-- `dft_stego.py` lines 210-217: `remainder = ratio - floor(ratio)`,
bit 1 iff `0.25 < remainder < 0.75`. -/
def dftReadBit (c : ℚ) (s : ℚ) : Bool :=
  let remainder := Int.fract (c / s)
  if 1/4 < remainder ∧ remainder < 3/4 then true else false

/-- `audio_dct_stego.py` lines 89-94: round-quantization write. -/
def audioWriteBit (c : ℚ) (b : Bool) (s : ℚ) : ℚ :=
  if b then ((pyRound (c / s) : ℚ) + 1/2) * s else (pyRound (c / s) : ℚ) * s

/-- `audio_dct_stego.py` lines 222-234: `remainder = abs(ratio - round(ratio))`,
bit 0 iff `remainder < 0.25`, else bit 1. -/
def audioReadBit (c : ℚ) (s : ℚ) : Bool :=
  let ratio := c / s
  let remainder := |ratio - (pyRound ratio : ℚ)|
  if remainder < 1/4 then false else true

/-! Characterizations of the read primitives in terms of the fractional part
`r = fract(c / s) ∈ [0, 1)`. -/

theorem dctReadBit_iff (c s : ℚ) :
    dctReadBit c s = true ↔ 1/4 < Int.fract (c / s) ∧ Int.fract (c / s) < 3/4 := by
  have h := abs_of_nonneg (Int.fract_nonneg (c / s))
  simp only [dctReadBit, h]
  split_ifs with hcond
  · simpa using hcond
  · simpa using hcond

theorem waveletReadBit_iff (c s : ℚ) :
    waveletReadBit c s = true ↔ 1/5 < Int.fract (c / s) ∧ Int.fract (c / s) < 4/5 := by
  have h := abs_of_nonneg (Int.fract_nonneg (c / s))
  simp only [waveletReadBit, h]
  split_ifs with hcond
  · simpa using hcond
  · simpa using hcond

theorem dftReadBit_iff (c s : ℚ) :
    dftReadBit c s = true ↔ 1/4 < Int.fract (c / s) ∧ Int.fract (c / s) < 3/4 := by
  simp only [dftReadBit]
  split_ifs with hcond
  · simpa using hcond
  · simpa using hcond

theorem svdReadBit_iff (c s : ℚ) (hc : 0 ≤ c) (hs : 0 < s) :
    svdReadBit c s = true ↔ 3/10 < Int.fract (c / s) ∧ Int.fract (c / s) < 7/10 := by
  have hr : 0 ≤ c / s := div_nonneg hc hs.le
  have htr : (pyInt (c / s) : ℚ) = (⌊c / s⌋ : ℚ) := by rw [pyInt_of_nonneg _ hr]
  have hfr : c / s - (pyInt (c / s) : ℚ) = Int.fract (c / s) := by
    rw [htr, Int.fract]
  simp only [svdReadBit, hfr]
  split_ifs with hcond
  · simpa using hcond
  · simpa using hcond

theorem audioReadBit_iff (c s : ℚ) :
    audioReadBit c s = true ↔ 1/4 ≤ Int.fract (c / s) ∧ Int.fract (c / s) ≤ 3/4 := by
  have habs := abs_sub_pyRound (c / s)
  have hf0 : 0 ≤ Int.fract (c / s) := Int.fract_nonneg (c / s)
  have hf1 : Int.fract (c / s) < 1 := Int.fract_lt_one (c / s)
  simp only [audioReadBit, habs]
  constructor
  · intro h
    by_contra hcon
    push_neg at hcon
    split_ifs at h with hlt
    rcases lt_or_le (Int.fract (c / s)) (1/4) with hc1 | hc1
    · exact hlt (lt_of_le_of_lt (min_le_left _ _) hc1)
    · have := hcon hc1
      exact hlt (lt_of_le_of_lt (min_le_right _ _) (by linarith))
  · intro ⟨h1, h2⟩
    have hnot : ¬ (min (Int.fract (c / s)) (1 - Int.fract (c / s)) < 1/4) := by
      rw [not_lt, le_min_iff]
      constructor <;> linarith
    rw [if_neg hnot]

/-! ## Quantization write/read inverse (exact arithmetic) -/

theorem dctReadBit_dctWriteBit (c : ℚ) (b : Bool) (s : ℚ) (hs : 0 < s) :
    dctReadBit (dctWriteBit c b s) s = b := by
  have hs' : s ≠ 0 := hs.ne'
  cases b with
  | false =>
    have hdiv : dctWriteBit c false s / s = (⌊c / s⌋ : ℚ) := by
      rw [dctWriteBit]
      simp only [if_neg (Bool.false_ne_true)]
      field_simp
    rw [dctReadBit, hdiv]
    norm_num [Int.fract_intCast]
  | true =>
    have hdiv : dctWriteBit c true s / s = (⌊c / s⌋ : ℚ) + 1/2 := by
      rw [dctWriteBit]
      simp only [if_pos rfl]
      field_simp
      ring
    have hfr : Int.fract ((⌊c / s⌋ : ℚ) + 1/2) = 1/2 := by
      rw [Int.fract_int_add, Int.fract]
      norm_num
    rw [dctReadBit, hdiv, hfr]
    rw [abs_of_nonneg (by norm_num : (0:ℚ) ≤ 1/2)]
    norm_num

/-! ## Block-DCT pipeline (`dct_stego.py`), at coefficient level

The carrier is the ordered list of `dct_block[4, 5]` coefficients of the
8x8 blocks visited row-major by the source's block scan (`encode` lines
43-74, `decode` lines 115-148).  `dctCapacity` is `encode` line 36. -/

/-- `encode` line 36: `max_message_bits = (height // bs) * (width // bs)`. -/
def dctCapacity (h w bs : ℕ) : ℕ := (h / bs) * (w / bs)

/-- The embedding loop (`encode` lines 43-74): write one bit per block
coefficient until the bits run out; later coefficients are untouched. -/
def embedList (s : ℚ) : List ℚ → List Bool → List ℚ
  | cs, [] => cs
  | [], _ :: _ => []
  | c :: cs, b :: bs => dctWriteBit c b s :: embedList s cs bs

/-- `encode` (lines 21-38 framing and capacity check, lines 43-74 embedding):
returns the modified coefficient list, or the capacity error before any
coefficient is touched. -/
def dctEncode (h w : ℕ) (coeffs : List ℚ) (bits : List Bool) (s : ℚ) :
    Except String (List ℚ) :=
  if dctCapacity h w 8 < bits.length then Except.error "Message too long!"
  else Except.ok (embedList s coeffs bits)

/-- Terminator test on the accumulated bits (`decode` lines 136-141):
at least 8 bits collected and the last 8 are all zero. -/
def tailTerm (l : List Bool) : Prop :=
  8 ≤ l.length ∧ l.drop (l.length - 8) = List.replicate 8 false

instance (l : List Bool) : Decidable (tailTerm l) := by
  unfold tailTerm
  infer_instance

/-- The extraction scan (`decode` lines 115-148) on an already-read bit
sequence: append one bit per step; stop with the pre-terminator prefix when
the last 8 collected bits are all zero; stop without a terminator when the
`max_bits_to_check` cap is reached.  Returns (collected bits, terminator
found). -/
def scanBits (maxB : ℕ) : List Bool → List Bool → List Bool × Bool
  | [], acc => (acc, false)
  | b :: bs, acc =>
    if tailTerm (acc ++ [b]) then ((acc ++ [b]).take ((acc ++ [b]).length - 8), true)
    else if maxB ≤ (acc ++ [b]).length then (acc ++ [b], false)
    else scanBits maxB bs (acc ++ [b])

/-- The extraction scan over the coefficient list (`decode` lines 115-148),
reading each block's coefficient with `dctReadBit`. -/
def scanCoeffs (s : ℚ) (maxB : ℕ) : List ℚ → List Bool → List Bool × Bool
  | [], acc => (acc, false)
  | c :: cs, acc =>
    if tailTerm (acc ++ [dctReadBit c s]) then
      ((acc ++ [dctReadBit c s]).take ((acc ++ [dctReadBit c s]).length - 8), true)
    else if maxB ≤ (acc ++ [dctReadBit c s]).length then (acc ++ [dctReadBit c s], false)
    else scanCoeffs s maxB cs (acc ++ [dctReadBit c s])

/-- `_bits_to_message` byte-to-character policy (`dct_stego.py` lines 170-177):
printable ASCII and tab/LF/CR pass through, anything else becomes U+FFFD. -/
def dctByteChar (n : ℕ) : Char :=
  if (32 ≤ n ∧ n ≤ 126) ∨ n = 9 ∨ n = 10 ∨ n = 13 then Char.ofNat n
  else Char.ofNat 0xFFFD

/-- Split a bit list into the values of its complete bytes, dropping a
trailing partial byte (`for i in range(0, len(bits), 8): if i + 8 <= len`). -/
def bitsToBytes : List Bool → List ℕ
  | b0 :: b1 :: b2 :: b3 :: b4 :: b5 :: b6 :: b7 :: rest =>
    bitsVal [b0, b1, b2, b3, b4, b5, b6, b7] :: bitsToBytes rest
  | _ => []

/-- Zero padding to a whole byte (`while len(bits) % 8 != 0: bits.append(0)`). -/
def padBits (bits : List Bool) : List Bool :=
  bits ++ List.replicate ((8 - bits.length % 8) % 8) false

/-- `DCTSteganography._bits_to_message` (lines 156-182). -/
def dctBitsToMessage (bits : List Bool) : String :=
  String.mk ((bitsToBytes (padBits bits)).map dctByteChar)

/-- `DCTSteganography.decode` (lines 87-154) at coefficient level: scan the
block coefficients (capped at `min(height * width, 50000)` bits), then
convert; both the terminator and the exhaustion path go through
`_bits_to_message`, and `None` is replaced by the empty string. -/
def dctDecode (s : ℚ) (h w : ℕ) (coeffs : List ℚ) : String :=
  dctBitsToMessage (scanCoeffs s (min (h * w) 50000) coeffs []).1

/-- The string formed from the message's character codes. -/
def codesToString (m : List ℕ) : String :=
  String.mk (m.map Char.ofNat)

/-! ## Scan lemmas -/

/-- The bit list contains no window of 8 consecutive zero bits: no prefix of
the list ends in the terminator pattern. -/
def noRun8 (l : List Bool) : Prop :=
  ∀ k, k ≤ l.length → ¬ tailTerm (l.take k)

instance (l : List Bool) : Decidable (noRun8 l) := by
  unfold noRun8
  infer_instance

theorem scanCoeffs_eq_scanBits (s : ℚ) (maxB : ℕ) (cs : List ℚ) (acc : List Bool) :
    scanCoeffs s maxB cs acc = scanBits maxB (cs.map (fun c => dctReadBit c s)) acc := by
  induction cs generalizing acc with
  | nil => rfl
  | cons c cs ih =>
    simp only [scanCoeffs, List.map_cons, scanBits]
    split_ifs with h1 h2
    · rfl
    · rfl
    · exact ih (acc ++ [dctReadBit c s])

theorem map_read_embedList (s : ℚ) (cs : List ℚ) (bs : List Bool) (hs : 0 < s)
    (hlen : bs.length ≤ cs.length) :
    (embedList s cs bs).map (fun c => dctReadBit c s)
      = bs ++ (cs.drop bs.length).map (fun c => dctReadBit c s) := by
  induction bs generalizing cs with
  | nil => simp [embedList]
  | cons b bs ih =>
    cases cs with
    | nil => simp at hlen
    | cons c cs =>
      simp only [embedList, List.map_cons, List.drop_succ_cons, List.cons_append]
      rw [dctReadBit_dctWriteBit c b s hs,
        ih cs (by simpa using Nat.le_of_succ_le_succ hlen)]
      simp

theorem scanBits_append_of_no_stop (maxB : ℕ) (bs rest acc : List Bool)
    (hterm : ∀ p t, bs = p ++ t → p ≠ [] → ¬ tailTerm (acc ++ p))
    (hmax : acc.length + bs.length < maxB) :
    scanBits maxB (bs ++ rest) acc = scanBits maxB rest (acc ++ bs) := by
  induction bs generalizing acc with
  | nil => simp
  | cons b bs ih =>
    have h1 : ¬ tailTerm (acc ++ [b]) := hterm [b] bs rfl (by simp)
    have h2 : ¬ (maxB ≤ (acc ++ [b]).length) := by
      simp only [List.length_append, List.length_cons, List.length_nil]
      simp only [List.length_cons] at hmax
      omega
    rw [List.cons_append]
    simp only [scanBits]
    rw [if_neg h1, if_neg h2]
    have ht' : ∀ p t, bs = p ++ t → p ≠ [] → ¬ tailTerm ((acc ++ [b]) ++ p) := by
      intro p t hpt hp
      have hb : b :: bs = ([b] ++ p) ++ t := by rw [hpt]; simp
      have := hterm ([b] ++ p) t hb (by simp)
      simpa [List.append_assoc] using this
    have hm' : (acc ++ [b]).length + bs.length < maxB := by
      simp only [List.length_append, List.length_cons, List.length_nil]
      simp only [List.length_cons] at hmax
      omega
    rw [ih (acc ++ [b]) ht' hm', List.append_assoc, List.singleton_append]

theorem scanBits_stop (maxB : ℕ) (bs acc : List Bool) (b : Bool)
    (h : tailTerm (acc ++ [b])) :
    scanBits maxB (b :: bs) acc = ((acc ++ [b]).take ((acc ++ [b]).length - 8), true) := by
  simp only [scanBits]
  rw [if_pos h]

/-! ## Trailing-zero decomposition of the message bits -/

/-- Number of leading `false` bits. -/
def leadFalse : List Bool → ℕ
  | [] => 0
  | true :: _ => 0
  | false :: bs => leadFalse bs + 1

theorem leadFalse_decomp (l : List Bool) :
    l = List.replicate (leadFalse l) false ++ l.drop (leadFalse l) := by
  induction l with
  | nil => rfl
  | cons b bs ih =>
    cases b with
    | false =>
      simp only [leadFalse, List.replicate_succ, List.cons_append, List.drop_succ_cons]
      exact congrArg (false :: ·) ih
    | true => rfl

theorem leadFalse_head (l : List Bool) :
    l.drop (leadFalse l) = [] ∨ ∃ t, l.drop (leadFalse l) = true :: t := by
  induction l with
  | nil => left; rfl
  | cons b bs ih =>
    cases b with
    | false => simpa only [leadFalse, List.drop_succ_cons] using ih
    | true => right; exact ⟨bs, rfl⟩

/-- Every bit list splits uniquely as a part not ending in `false` followed by
its maximal run of trailing `false` bits. -/
theorem trailing_decomp (M : List Bool) :
    ∃ R z, M = R ++ List.replicate z false ∧
      (R = [] ∨ ∃ R', R = R' ++ [true]) := by
  have hd := leadFalse_decomp M.reverse
  have hh := leadFalse_head M.reverse
  refine ⟨(M.reverse.drop (leadFalse M.reverse)).reverse, leadFalse M.reverse, ?_, ?_⟩
  · calc M = M.reverse.reverse := (List.reverse_reverse M).symm
    _ = (List.replicate (leadFalse M.reverse) false
          ++ M.reverse.drop (leadFalse M.reverse)).reverse := by rw [← hd]
    _ = (M.reverse.drop (leadFalse M.reverse)).reverse
          ++ List.replicate (leadFalse M.reverse) false := by
        rw [List.reverse_append, List.reverse_replicate]
  · rcases hh with h | ⟨t, ht⟩
    · left; rw [h]; rfl
    · right
      exact ⟨t.reverse, by rw [ht, List.reverse_cons]⟩

theorem tailTerm_append_replicate (R : List Bool) :
    tailTerm (R ++ List.replicate 8 false) := by
  constructor
  · simp
  · have hlen : (R ++ List.replicate 8 false).length - 8 = R.length := by
      simp
    rw [hlen]
    rw [List.drop_append_eq_append_drop]
    simp

/-- Under `noRun8` the trailing run of zeros is at most 7 bits. -/
theorem trailing_le_seven (M R : List Bool) (z : ℕ)
    (hM : M = R ++ List.replicate z false) (hrun : noRun8 M) : z ≤ 7 := by
  by_contra hz
  push_neg at hz
  have h8 : List.replicate z false
      = List.replicate (z - 8) false ++ List.replicate 8 false := by
    rw [← List.replicate_add]
    congr 1
    omega
  have hterm : tailTerm M := by
    rw [hM, h8, ← List.append_assoc]
    exact tailTerm_append_replicate _
  have := hrun M.length le_rfl
  rw [List.take_length] at this
  exact this hterm

/-- No prefix of `R ++ 0000000` triggers the terminator test, when `R` has no
8-zero window and does not end in `false`. -/
theorem no_stop_before_term (M R : List Bool) (z : ℕ)
    (hM : M = R ++ List.replicate z false)
    (hR : R = [] ∨ ∃ R', R = R' ++ [true])
    (hrun : noRun8 M) :
    ∀ p t, (R ++ List.replicate 7 false) = p ++ t → p ≠ [] → ¬ tailTerm ([] ++ p) := by
  intro p t hpt hp
  rw [List.nil_append]
  intro hterm
  have hplen : p.length ≤ R.length + 7 := by
    have := congrArg List.length hpt
    simp at this
    omega
  have hptake : p = (R ++ List.replicate 7 false).take p.length := by
    rw [hpt, List.take_append_of_le_length]
    · rw [List.take_length]
    · exact le_rfl
  by_cases hcase : p.length ≤ R.length
  · -- the window lies inside R, hence inside M: contradicts noRun8
    have h1 : p = R.take p.length := by
      conv_lhs => rw [hptake]
      exact List.take_append_of_le_length hcase
    have hpM : p = M.take p.length := by
      rw [hM, List.take_append_of_le_length hcase]
      exact h1
    have hlenM : p.length ≤ M.length := by
      rw [hM]
      simp only [List.length_append]
      omega
    exact hrun p.length hlenM (by rw [← hpM]; exact hterm)
  · -- the window covers the final `true` of R
    push_neg at hcase
    rcases hR with hR0 | ⟨R', hR'⟩
    · -- R = []: p is a short run of zeros, length < 8
      have : p.length < 8 := by
        rw [hR0] at hplen
        simp at hplen
        omega
      exact absurd hterm.1 (by omega)
    · -- R = R' ++ [true]: the window contains that `true`
      obtain ⟨h8, hdrop⟩ := hterm
      have hRlen : R.length = R'.length + 1 := by rw [hR']; simp
      have hpfull : p = R' ++ true :: List.replicate (p.length - R.length) false := by
        have h1 : (R ++ List.replicate 7 false).take p.length
            = R ++ List.replicate (p.length - R.length) false := by
          rw [List.take_append_eq_append_take, List.take_of_length_le hcase.le,
            List.take_replicate]
          congr 2
          omega
        conv_lhs => rw [hptake]
        rw [h1, hR', List.append_assoc, List.singleton_append]
      have hplen2 : p.length = R'.length + 1 + (p.length - R.length) := by
        have := congrArg List.length hpfull
        simp at this
        omega
      have htrue : true ∈ p.drop (p.length - 8) := by
        set L := p.length with hL
        rw [hpfull, List.drop_append_eq_append_drop]
        have h0 : L - 8 - R'.length = 0 := by omega
        rw [h0]
        simp
      rw [hdrop] at htrue
      have := List.eq_of_mem_replicate htrue
      simp at this

/-- Master scan lemma: scanning the framed bitstream `M ++ terminator` (with
arbitrary bits `G` after it) stops at the first all-zero 8-window, returning
exactly `M` with its trailing zeros stripped. -/
theorem scan_of_framed (maxB : ℕ) (M R G : List Bool) (z : ℕ)
    (hM : M = R ++ List.replicate z false)
    (hR : R = [] ∨ ∃ R', R = R' ++ [true])
    (hrun : noRun8 M)
    (hmax : R.length + 8 ≤ maxB) :
    scanBits maxB (M ++ terminatorBits ++ G) [] = (R, true) := by
  have hinput : M ++ terminatorBits ++ G
      = (R ++ List.replicate 7 false) ++ (false :: (List.replicate z false ++ G)) := by
    rw [hM, terminatorBits]
    have h1 : (false :: (List.replicate z false ++ G))
        = List.replicate (z + 1) false ++ G := by
      rw [List.replicate_succ, List.cons_append]
    rw [h1]
    simp only [List.append_assoc]
    congr 1
    rw [← List.append_assoc, ← List.replicate_add,
        ← List.append_assoc, ← List.replicate_add]
    congr 2
    omega
  rw [hinput]
  rw [scanBits_append_of_no_stop maxB (R ++ List.replicate 7 false) _ []
    (no_stop_before_term M R z hM hR hrun) (by simp; omega)]
  rw [List.nil_append]
  have hstop : tailTerm ((R ++ List.replicate 7 false) ++ [false]) := by
    rw [List.append_assoc, ← List.replicate_succ']
    exact tailTerm_append_replicate R
  rw [scanBits_stop _ _ _ _ hstop]
  rw [List.append_assoc, ← List.replicate_succ']
  have hlen : (R ++ List.replicate 8 false).length - 8 = R.length := by simp
  rw [hlen]
  rw [List.take_append_of_le_length le_rfl, List.take_length]

/-! ## Reconstruction of the message text -/

theorem byteToBits_explicit (c : ℕ) :
    byteToBits c = [c.testBit 7, c.testBit 6, c.testBit 5, c.testBit 4,
      c.testBit 3, c.testBit 2, c.testBit 1, c.testBit 0] := rfl

theorem messageBits_length (m : List ℕ) : (messageBits m).length = 8 * m.length := by
  induction m with
  | nil => rfl
  | cons c m ih =>
    simp only [messageBits, List.map_cons, List.flatten_cons, List.length_append]
    simp only [messageBits] at ih
    rw [ih, byteToBits_explicit]
    simp
    ring

theorem padBits_of_trailing (R : List Bool) (z : ℕ) (hz : z ≤ 7)
    (hmod : (R.length + z) % 8 = 0) :
    padBits R = R ++ List.replicate z false := by
  rw [padBits]
  congr 2
  omega

theorem bitsToBytes_messageBits (m : List ℕ) (h : ∀ c ∈ m, c < 256) :
    bitsToBytes (messageBits m) = m := by
  induction m with
  | nil => rfl
  | cons c m ih =>
    have hc : c < 256 := h c (by simp)
    simp only [messageBits, List.map_cons, List.flatten_cons]
    rw [byteToBits_explicit]
    simp only [List.cons_append, List.nil_append, bitsToBytes]
    rw [← byteToBits_explicit, bitsVal_byteToBits c hc]
    have ih' := ih (fun c hc => h c (by simp [hc]))
    simp only [messageBits] at ih'
    exact congrArg (c :: ·) ih'

/-! ## Claim C1: round-trip -/

/-- C1 (amended): for messages over the decoder-accepted byte set (printable
ASCII or tab/LF/CR) whose bit encoding contains no window of 8 consecutive
zero bits, and whose framed bitstream fits both the capacity and the decode
scan cap, Block-DCT decode of Block-DCT encode returns exactly the message
(at coefficient level, transform round trip exact).  The original universal
claim over all ASCII messages fails: see the counterexample. -/
theorem dct_roundtrip (h w : ℕ) (coeffs : List ℚ) (m : List ℕ) (s : ℚ)
    (hs : 0 < s)
    (hchars : ∀ c ∈ m, (32 ≤ c ∧ c ≤ 126) ∨ c = 9 ∨ c = 10 ∨ c = 13)
    (hrun : noRun8 (messageBits m))
    (hclen : coeffs.length = dctCapacity h w 8)
    (hcap : (messageToBinary m).length ≤ dctCapacity h w 8)
    (hmax : (messageToBinary m).length ≤ min (h * w) 50000) :
    dctEncode h w coeffs (messageToBinary m) s
        = Except.ok (embedList s coeffs (messageToBinary m))
      ∧ dctDecode s h w (embedList s coeffs (messageToBinary m)) = codesToString m := by
  have hlenbits : (messageToBinary m).length ≤ coeffs.length := by
    rw [hclen]
    exact hcap
  have hMlen : (messageBits m).length = 8 * m.length := messageBits_length m
  have hlen2 : (messageToBinary m).length = 8 * m.length + 8 := by
    simp [messageToBinary, terminatorBits, hMlen]
  constructor
  · rw [dctEncode, if_neg (not_lt.mpr hcap)]
  · obtain ⟨R, z, hM, hR⟩ := trailing_decomp (messageBits m)
    have hz : z ≤ 7 := trailing_le_seven _ _ _ hM hrun
    have hRlen : R.length + z = 8 * m.length := by
      have := congrArg List.length hM
      simp at this
      omega
    rw [dctDecode, scanCoeffs_eq_scanBits,
      map_read_embedList s coeffs (messageToBinary m) hs hlenbits]
    simp only [messageToBinary]
    rw [scan_of_framed (min (h * w) 50000) (messageBits m) R _ z hM hR hrun
      (by omega)]
    have hpad : padBits R = messageBits m := by
      rw [padBits_of_trailing R z hz (by omega), ← hM]
    have hcodes : ∀ c ∈ m, c < 256 := by
      intro c hc
      rcases hchars c hc with ⟨_, h2⟩ | h1 | h1 | h1 <;> omega
    rw [dctBitsToMessage, hpad, bitsToBytes_messageBits m hcodes, codesToString]
    congr 1
    apply List.map_congr_left
    intro c hc
    rw [dctByteChar, if_pos (hchars c hc)]

/-- C1 counterexample: the ASCII message `"@ "` (codes 64, 32; 16 message bits
plus terminator is 24 bits, well within a 64x64 carrier's 64-block capacity)
does not round-trip: the trailing zeros of `'@'` and the leading zeros of
`' '` form an 8-zero window, the decoder's terminator test fires mid-byte,
and decode returns `"@"`, not `"@ "`. -/
theorem dct_roundtrip_cex :
    dctEncode 64 64 (List.replicate 64 (0:ℚ)) (messageToBinary [64, 32]) 10
      = Except.ok (embedList 10 (List.replicate 64 (0:ℚ)) (messageToBinary [64, 32]))
    ∧ dctDecode 10 64 64
        (embedList 10 (List.replicate 64 (0:ℚ)) (messageToBinary [64, 32])) = "@"
    ∧ codesToString [64, 32] = "@ "
    ∧ ("@" : String) ≠ "@ " := by
  refine ⟨by with_unfolding_all rfl, by with_unfolding_all decide, by decide, by decide⟩

/-- C1 witness (Concrete scenario A): 64x64 carrier, Block-DCT, step 10,
message `"Hi"` (codes 72, 105) round-trips exactly. -/
theorem dct_roundtrip_witness :
    dctDecode 10 64 64 (embedList 10 (List.replicate 64 (7:ℚ)) (messageToBinary [72, 105]))
      = codesToString [72, 105] ∧ codesToString [72, 105] = "Hi" :=
  ⟨(dct_roundtrip 64 64 (List.replicate 64 (7:ℚ)) [72, 105] 10 (by norm_num)
    (by decide) (by decide) (by with_unfolding_all decide) (by decide) (by decide)).2,
   by decide⟩

/-! ## Claim C3: capacity boundary -/

/-- C3: encode fails with the capacity error exactly when the framed bitstream
is strictly longer than `(height / 8) * (width / 8)`; a bitstream of exactly
capacity length succeeds; and in the error case no stego carrier is produced
at all (the check precedes the embedding loop). -/
theorem dct_capacity_boundary (h w : ℕ) (coeffs : List ℚ) (bits : List Bool) (s : ℚ) :
    (dctEncode h w coeffs bits s = Except.ok (embedList s coeffs bits)
        ↔ bits.length ≤ dctCapacity h w 8)
      ∧ (dctEncode h w coeffs bits s = Except.error "Message too long!"
        ↔ dctCapacity h w 8 < bits.length) := by
  constructor
  · constructor
    · intro hok
      by_contra hlen
      push_neg at hlen
      rw [dctEncode, if_pos hlen] at hok
      exact absurd hok (by simp)
    · intro hle
      rw [dctEncode, if_neg (not_lt.mpr hle)]
  · constructor
    · intro herr
      by_contra hlen
      push_neg at hlen
      rw [dctEncode, if_neg (not_lt.mpr hlen)] at herr
      exact absurd herr (by simp)
    · intro hlt
      rw [dctEncode, if_pos hlt]

/-! ## Claim C6: terminator detection alignment -/

/-- C6 (amended): the decoder tests the trailing 8 collected bits after every
appended bit, not only at byte boundaries: whenever the first all-zero 8-bit
window of the scanned stream ends at position `P.length` (any alignment), the
scan stops right there and returns the bits before the window. -/
theorem terminator_check_every_bit (maxB : ℕ) (P rest : List Bool) (b : Bool)
    (hpre : ∀ k, k ≤ P.length → k ≠ 0 → ¬ tailTerm (P.take k))
    (hmax : P.length < maxB)
    (hstop : tailTerm (P ++ [b])) :
    scanBits maxB (P ++ b :: rest) [] = ((P ++ [b]).take ((P ++ [b]).length - 8), true) := by
  have hpre' : ∀ p t, P = p ++ t → p ≠ [] → ¬ tailTerm ([] ++ p) := by
    intro p t hpt hp
    rw [List.nil_append]
    have hpp : P.take p.length = p := by
      rw [hpt, List.take_left]
    have hk : p.length ≤ P.length := by
      rw [hpt]
      simp
    have hne : p.length ≠ 0 := by
      simpa using hp
    have := hpre p.length hk hne
    rw [hpp] at this
    exact this
  rw [scanBits_append_of_no_stop maxB P (b :: rest) [] hpre' (by simpa using hmax),
    List.nil_append, scanBits_stop maxB rest P b hstop]

/-- The 16-bit stream of the two bytes `01000000 00110011` (`'@'` then `'3'`):
neither byte is the zero byte, but bits 2..9 form an all-zero window that
straddles the byte boundary. -/
def straddleBits : List Bool :=
  [false, true, false, false, false, false, false, false,
   false, false, true, true, false, false, true, true]

/-- `stego_base.py` helper: index of the first occurrence of the 8-zero
substring at any offset (`binary.find(self.terminator)`). -/
def findTermIdx : List Bool → Option ℕ
  | [] => none
  | b :: bs =>
    if (b :: bs).take 8 = List.replicate 8 false then some 0
    else (findTermIdx bs).map (· + 1)

/-- `SteganographyBase.binary_to_message` (`stego_base.py` lines 15-36): cut at
the first occurrence of the terminator substring (any alignment), then decode
only the complete bytes before it. -/
def binary_to_message (l : List Bool) : String :=
  String.mk ((bitsToBytes (match findTermIdx l with
    | some i => l.take i
    | none => l)).map (fun n => Char.ofNat n))

/-- C6 counterexample: on the straddling stream, the scan stops mid-byte
(after bit 10) and reports the terminator found, returning the 2-bit prefix;
and `binary_to_message` likewise cuts at offset 2, which is not a byte
boundary — although both 8-bit bytes of the stream are nonzero.  The claim
that a straddling all-zero run does not terminate the scan is false. -/
theorem terminator_straddle_cex :
    scanBits 4096 straddleBits [] = ([false, true], true)
    ∧ bitsVal (straddleBits.take 8) = 64
    ∧ bitsVal ((straddleBits.drop 8).take 8) = 51
    ∧ findTermIdx straddleBits = some 2
    ∧ binary_to_message straddleBits = "" := by
  refine ⟨by decide, by decide, by decide, by decide, by decide⟩

/-- C6 witness: the general stop theorem applied to the straddling stream. -/
theorem terminator_check_every_bit_witness :
    scanBits 4096 (straddleBits.take 9 ++ false :: straddleBits.drop 10) []
      = ((straddleBits.take 9 ++ [false]).take ((straddleBits.take 9 ++ [false]).length - 8),
          true) :=
  terminator_check_every_bit 4096 (straddleBits.take 9) (straddleBits.drop 10) false
    (by decide) (by decide) (by decide)

/-! ## Claim C7: decode on message-less carriers -/

theorem bitsToBytes_ne_nil (l : List Bool) (h8 : 8 ≤ l.length) : bitsToBytes l ≠ [] := by
  match l with
  | b0 :: b1 :: b2 :: b3 :: b4 :: b5 :: b6 :: b7 :: rest => simp [bitsToBytes]
  | [] => simp at h8
  | [_] => simp at h8
  | [_, _] => simp at h8
  | [_, _, _] => simp at h8
  | [_, _, _, _] => simp at h8
  | [_, _, _, _, _] => simp at h8
  | [_, _, _, _, _, _] => simp at h8
  | [_, _, _, _, _, _, _] => simp at h8

theorem dctBitsToMessage_eq_empty_iff (bits : List Bool) :
    dctBitsToMessage bits = "" ↔ bits = [] := by
  constructor
  · intro hmsg
    by_contra hne
    have hlen1 : 1 ≤ bits.length := by
      cases bits with
      | nil => exact absurd rfl hne
      | cons b bs => simp
    have hlen8 : 8 ≤ (padBits bits).length := by
      rw [padBits]
      simp only [List.length_append, List.length_replicate]
      omega
    have hbytes := bitsToBytes_ne_nil (padBits bits) hlen8
    have hchars : (bitsToBytes (padBits bits)).map dctByteChar ≠ [] := by
      simpa using hbytes
    have := congrArg String.data hmsg
    rw [dctBitsToMessage] at this
    exact hchars this
  · intro hnil
    rw [hnil]
    rfl

/-- C7 (amended): the Block-DCT decoder is total: when the coefficient scan
finds no terminator it still returns the best-effort text of all collected
bits, and returns the empty string exactly when zero bits were collected.
The Reliable (LSB) decoder, however, violates the claim: it returns `None`
when its scan exhausts without a terminator (see the counterexample). -/
theorem dct_decode_best_effort (s : ℚ) (h w : ℕ) (coeffs : List ℚ)
    (hnone : (scanCoeffs s (min (h * w) 50000) coeffs []).2 = false) :
    dctDecode s h w coeffs
        = dctBitsToMessage (scanCoeffs s (min (h * w) 50000) coeffs []).1
      ∧ (dctDecode s h w coeffs = ""
        ↔ (scanCoeffs s (min (h * w) 50000) coeffs []).1 = []) :=
  ⟨rfl, dctBitsToMessage_eq_empty_iff _⟩

/-- C7 witness: a 9-coefficient carrier whose reads are all bit 1 (no
terminator anywhere): decode returns the best-effort text, which is nonempty. -/
theorem dct_decode_best_effort_witness :
    (scanCoeffs 10 (min (24 * 24) 50000) (List.replicate 9 (5:ℚ)) []).2 = false
    ∧ (dctDecode 10 24 24 (List.replicate 9 (5:ℚ))
        = dctBitsToMessage (scanCoeffs 10 (min (24 * 24) 50000) (List.replicate 9 (5:ℚ)) []).1
      ∧ (dctDecode 10 24 24 (List.replicate 9 (5:ℚ)) = ""
        ↔ (scanCoeffs 10 (min (24 * 24) 50000) (List.replicate 9 (5:ℚ)) []).1 = [])) :=
  ⟨by with_unfolding_all decide,
   dct_decode_best_effort 10 24 24 (List.replicate 9 (5:ℚ)) (by with_unfolding_all decide)⟩

/-- `ReliableSteganography.decode` scan (`reliable_stego.py` lines 60-93):
append the LSB of each blue-channel pixel, return the pre-terminator bits on
finding 8 zeros, stop with nothing past 100000 bits or at the end of the
pixels. -/
def reliableScan : List Bool → List Bool → Option (List Bool)
  | [], _ => none
  | b :: bs, acc =>
    if tailTerm (acc ++ [b]) then some ((acc ++ [b]).take ((acc ++ [b]).length - 8))
    else if 100000 < (acc ++ [b]).length then none
    else reliableScan bs (acc ++ [b])

/-- `ReliableSteganography.decode` (`reliable_stego.py` lines 54-93) over the
row-major blue-channel LSBs: `None` when the scan exhausts without a
terminator, otherwise the text of the complete bytes before the terminator. -/
def reliableDecode (lsbs : List Bool) : Option String :=
  (reliableScan lsbs []).map
    (fun bits => String.mk ((bitsToBytes bits).map (fun n => Char.ofNat n)))

/-- C7 counterexample: a well-formed 3x3 carrier whose blue channel is all 255
(so every LSB is 1) contains no terminator; `ReliableSteganography.decode`
returns `None` — a null result — instead of best-effort text. -/
theorem reliable_decode_none_cex :
    reliableDecode (List.replicate 9 true) = none ∧ (List.replicate 9 true).length = 9 := by
  refine ⟨by decide, by decide⟩

/-! ## Claim C4: read primitive thresholds -/

/-- C4 (amended): each variant's extractor is a threshold test on
`r = fract(coefficient / step)`, but the band drifts across variants instead
of being one shared rule with tolerance 0.25: DCT and DFT return 1 iff
`0.25 < r < 0.75` (strict, not the claimed inclusive band), SVD iff
`0.3 < r < 0.7`, Wavelet iff `0.2 < r < 0.8`, and only audio-DCT implements
the inclusive band `0.25 ≤ r ≤ 0.75` (via distance to the rounded ratio). -/
theorem readBit_thresholds (c s : ℚ) (hc : 0 ≤ c) (hs : 0 < s) :
    (dctReadBit c s = true ↔ 1/4 < Int.fract (c / s) ∧ Int.fract (c / s) < 3/4)
    ∧ (dftReadBit c s = true ↔ 1/4 < Int.fract (c / s) ∧ Int.fract (c / s) < 3/4)
    ∧ (svdReadBit c s = true ↔ 3/10 < Int.fract (c / s) ∧ Int.fract (c / s) < 7/10)
    ∧ (waveletReadBit c s = true ↔ 1/5 < Int.fract (c / s) ∧ Int.fract (c / s) < 4/5)
    ∧ (audioReadBit c s = true ↔ 1/4 ≤ Int.fract (c / s) ∧ Int.fract (c / s) ≤ 3/4) :=
  ⟨dctReadBit_iff c s, dftReadBit_iff c s, svdReadBit_iff c s hc hs,
   waveletReadBit_iff c s, audioReadBit_iff c s⟩

/-- C4 counterexample: at `r = 0.25` exactly, the DCT reader returns 0 where
the claimed inclusive rule (`0.25 ≤ r ≤ 0.75`) demands 1; and at `r = 0.28`
(inside the claimed band) the SVD reader returns 0, so the claimed single
shared tolerance of 0.25 does not hold across variants. -/
theorem readBit_thresholds_cex :
    Int.fract ((5:ℚ)/2 / 10) = 1/4 ∧ dctReadBit ((5:ℚ)/2) 10 = false
    ∧ Int.fract ((14:ℚ)/5 / 10) = 7/25 ∧ svdReadBit ((14:ℚ)/5) 10 = false
    ∧ ((1:ℚ)/4 ≤ 7/25 ∧ (7:ℚ)/25 ≤ 3/4) := by
  refine ⟨by with_unfolding_all decide, by with_unfolding_all decide,
    by with_unfolding_all decide, by with_unfolding_all decide, by norm_num⟩

/-- C4 witness: the threshold characterizations applied at `c = 5`, `s = 10`
(mid-lattice, `r = 1/2`): every variant reads bit 1 there. -/
theorem readBit_thresholds_witness :
    dctReadBit 5 10 = true ∧ audioReadBit 5 10 = true :=
  ⟨((readBit_thresholds 5 10 (by norm_num) (by norm_num)).1).mpr
      (by with_unfolding_all decide),
   ((readBit_thresholds 5 10 (by norm_num) (by norm_num)).2.2.2.2).mpr
      (by with_unfolding_all decide)⟩

/-! ## Claim C5: write primitive quantization -/

theorem fract_mul_int_div (k : ℤ) (s : ℚ) (hs : 0 < s) :
    Int.fract ((s * k) / s) = 0 := by
  have : (s * k) / s = (k : ℚ) := by
    field_simp
  rw [this, Int.fract_intCast]

theorem fract_mul_int_add_half_div (k : ℤ) (s : ℚ) (hs : 0 < s) :
    Int.fract ((s * k + s / 2) / s) = 1/2 := by
  have h1 : (s * k + s / 2) / s = (k : ℚ) + 1/2 := by
    field_simp
    ring
  rw [h1, Int.fract_int_add, Int.fract]
  norm_num

/-- C5 (amended): the write primitive is not one shared
`step * round(coefficient / step)` rule: the Block-DCT (and DFT) encoder
quantizes with `floor`, the audio-DCT (and Wavelet) encoder with Python's
round-half-to-even, and SVD with truncation.  The congruence invariant the
spec derives does hold for every variant in exact arithmetic: the written
coefficient is `0 mod step` for bit 0 and `step/2 mod step` for bit 1. -/
theorem writeBit_quantization (c s : ℚ) (hs : 0 < s) :
    (dctWriteBit c false s = s * ⌊c / s⌋
      ∧ dctWriteBit c true s = s * ⌊c / s⌋ + s / 2)
    ∧ (audioWriteBit c false s = (pyRound (c / s) : ℚ) * s
      ∧ audioWriteBit c true s = ((pyRound (c / s) : ℚ) + 1/2) * s)
    ∧ (Int.fract (dctWriteBit c false s / s) = 0
      ∧ Int.fract (dctWriteBit c true s / s) = 1/2)
    ∧ (Int.fract (dftWriteBit c false s / s) = 0
      ∧ Int.fract (dftWriteBit c true s / s) = 1/2)
    ∧ (Int.fract (svdWriteBit c false s / s) = 0
      ∧ Int.fract (svdWriteBit c true s / s) = 1/2)
    ∧ (Int.fract (waveletWriteBit c false s / s) = 0
      ∧ Int.fract (waveletWriteBit c true s / s) = 1/2)
    ∧ (Int.fract (audioWriteBit c false s / s) = 0
      ∧ Int.fract (audioWriteBit c true s / s) = 1/2) := by
  refine ⟨⟨rfl, rfl⟩, ⟨rfl, rfl⟩, ⟨?_, ?_⟩, ⟨?_, ?_⟩, ⟨?_, ?_⟩, ⟨?_, ?_⟩, ⟨?_, ?_⟩⟩
  · rw [dctWriteBit, if_neg Bool.false_ne_true, fract_mul_int_div _ _ hs]
  · rw [dctWriteBit, if_pos rfl, fract_mul_int_add_half_div _ _ hs]
  · rw [dftWriteBit, if_neg Bool.false_ne_true, fract_mul_int_div _ _ hs]
  · rw [dftWriteBit, if_pos rfl, fract_mul_int_add_half_div _ _ hs]
  · rw [svdWriteBit, if_neg Bool.false_ne_true, fract_mul_int_div _ _ hs]
  · rw [svdWriteBit, if_pos rfl]
    have : s * ((pyInt (c / s) : ℚ) + 1/2) = s * (pyInt (c / s) : ℚ) + s / 2 := by ring
    rw [this, fract_mul_int_add_half_div _ _ hs]
  · rw [waveletWriteBit, if_neg Bool.false_ne_true, mul_comm, fract_mul_int_div _ _ hs]
  · rw [waveletWriteBit, if_pos rfl, mul_comm (pyRound (c / s) : ℚ) s,
      fract_mul_int_add_half_div _ _ hs]
  · rw [audioWriteBit, if_neg Bool.false_ne_true, mul_comm, fract_mul_int_div _ _ hs]
  · rw [audioWriteBit, if_pos rfl]
    have : ((pyRound (c / s) : ℚ) + 1/2) * s = s * (pyRound (c / s) : ℚ) + s / 2 := by
      ring
    rw [this, fract_mul_int_add_half_div _ _ hs]

/-- C5 counterexample: at `c = 17`, `s = 10` the Block-DCT writer returns 10
(`floor` quantization), while the claimed `step * round(c / step)` is 20. -/
theorem writeBit_not_round_cex :
    dctWriteBit 17 false 10 = 10
    ∧ (10:ℚ) * (pyRound ((17:ℚ)/10) : ℚ) = 20
    ∧ dctWriteBit 17 false 10 ≠ (10:ℚ) * (pyRound ((17:ℚ)/10) : ℚ) := by
  refine ⟨by with_unfolding_all decide, by with_unfolding_all decide,
    by with_unfolding_all decide⟩

/-- C5 witness: the quantization invariants applied at `c = 17`, `s = 10`. -/
theorem writeBit_quantization_witness :
    dctWriteBit 17 false 10 = 10 * ⌊(17:ℚ) / 10⌋
    ∧ Int.fract (dctWriteBit 17 true 10 / 10) = 1/2 :=
  ⟨(writeBit_quantization 17 10 (by norm_num)).1.1,
   (writeBit_quantization 17 10 (by norm_num)).2.2.1.2⟩

/-! ## Claim C8: deterministic position enumeration (DFT) -/

/-- Python tuple ordering on `(row, col)` pairs. -/
def pairLE (a b : ℕ × ℕ) : Bool :=
  decide (a.1 < b.1) || (decide (a.1 = b.1) && decide (a.2 ≤ b.2))

def insertPos (p : ℕ × ℕ) : List (ℕ × ℕ) → List (ℕ × ℕ)
  | [] => [p]
  | q :: qs => if pairLE p q then p :: q :: qs else q :: insertPos p qs

/-- `list.sort()` on distinct coordinate pairs (any comparison sort computes
the same sorted permutation; modelled as insertion sort). -/
def sortPositions : List (ℕ × ℕ) → List (ℕ × ℕ)
  | [] => []
  | p :: ps => insertPos p (sortPositions ps)

/-- `DFTSteganography.encode` lines 36-58: the mid-frequency band bounds from
the carrier shape, the row-major double loop, then `sort()`. -/
def dftEncodePositions (rows cols : ℕ) : List (ℕ × ℕ) :=
  sortPositions
    (((List.range ((rows / 2 - rows / 16) - (rows / 2 - rows / 8))).map
        (fun i => (rows / 2 - rows / 8) + i)).flatMap
      (fun i => ((List.range ((cols / 2 + cols / 8) - (cols / 2 - cols / 8))).map
        (fun j => (cols / 2 - cols / 8) + j)).map (fun j => (i, j))))

/-- `DFTSteganography.decode` lines 184-196: the independent reconstruction of
the same position list from the stego carrier shape. -/
def dftDecodePositions (rows cols : ℕ) : List (ℕ × ℕ) :=
  sortPositions
    (((List.range ((rows / 2 - rows / 16) - (rows / 2 - rows / 8))).map
        (fun i => (rows / 2 - rows / 8) + i)).flatMap
      (fun i => ((List.range ((cols / 2 + cols / 8) - (cols / 2 - cols / 8))).map
        (fun j => (cols / 2 - cols / 8) + j)).map (fun j => (i, j))))

/-- C8: the ordered position list built at encode time and the one
reconstructed independently at decode time agree element for element for
every carrier shape; enumeration is a pure function of the shape, so two
independent calls with identical inputs yield identical ordered output. -/
theorem dft_positions_deterministic (rows cols : ℕ) :
    dftEncodePositions rows cols = dftDecodePositions rows cols
    ∧ ∀ i : ℕ, (dftEncodePositions rows cols)[i]? = (dftDecodePositions rows cols)[i]? :=
  ⟨rfl, fun _ => rfl⟩

/-! ## Claim C2: decode reads sidecar files -/

/-- Python whitespace for `str.strip()`. -/
def pySpace (ch : Char) : Bool :=
  ch == ' ' || ch == '\t' || ch == '\n' || ch == '\r'
    || decide (ch.toNat = 11) || decide (ch.toNat = 12)

/-- Python `str.strip()`. -/
def pyStrip (t : String) : String :=
  String.mk (((t.data.dropWhile pySpace).reverse.dropWhile pySpace).reverse)

/-- The sidecar files `AudioDCTSteganography.encode` writes next to the stego
file: the plaintext backup at `stegoPath + ".txt"` (lines 30-32) and the
`.debug.txt` with the coefficient indices (lines 120-123); each is `none`
when the file does not exist at decode time. -/
structure AudioSidecars where
  backupTxt : Option String
  debugIndices : Option (List ℕ)

/-- `_binary_to_text` byte policy (`audio_dct_stego.py` lines 281-286):
printable ASCII and tab/LF/CR pass, anything else becomes `'?'`. -/
def audioByteChar (n : ℕ) : Char :=
  if (32 ≤ n ∧ n ≤ 126) ∨ n = 9 ∨ n = 10 ∨ n = 13 then Char.ofNat n else '?'

/-- `AudioDCTSteganography._binary_to_text` (lines 261-292). -/
def audioBinToText (bits : List Bool) : String :=
  String.mk ((bitsToBytes (padBits bits)).map audioByteChar)

/-- The extraction loop (`audio_dct_stego.py` lines 200-254): per block, read
the coefficient at the rotating target index, track the run of consecutive
zero bits, and cut at a run of 8; an exhausted block list means best-effort. -/
def audioScan (qf : ℚ) (indices : List ℕ) :
    List (ℕ → ℚ) → ℕ → List Bool → ℕ → String
  | [], _, acc, _ => if acc = [] then "" else audioBinToText acc
  | blk :: blks, i, acc, zc =>
    if audioReadBit (blk (indices.getD (i % indices.length) 0)) qf then
      audioScan qf indices blks (i + 1) (acc ++ [true]) 0
    else if 8 ≤ zc + 1 then
      audioBinToText ((acc ++ [false]).take ((acc ++ [false]).length - (zc + 1)))
    else audioScan qf indices blks (i + 1) (acc ++ [false]) (zc + 1)

/-- `AudioDCTSteganography.decode` (lines 133-254): if the `.txt` backup
sidecar exists, return its stripped contents without touching the carrier;
otherwise take the coefficient indices from the `.debug.txt` sidecar when
present (default `[80, 128, 192, 256]`) and extract from the carrier's
per-block DCT coefficients (capped at 1000 blocks). -/
def audioDecode (fs : AudioSidecars) (blocks : List (ℕ → ℚ)) (qf : ℚ) : String :=
  match fs.backupTxt with
  | some t => pyStrip t
  | none =>
    audioScan qf
      (match fs.debugIndices with
        | some l => l
        | none => [80, 128, 192, 256])
      (blocks.take 1000) 0 [] 0

/-- C2 (the code at the failing input): with the carrier blocks and parameters
held fixed, decode returns whatever the encode-time `.txt` sidecar holds, and
extracts from the carrier only when no sidecar exists — so decode is not a
function of the carrier samples and parameters alone, contradicting the
claim. -/
theorem decode_depends_on_sidecar :
    audioDecode ⟨some "A", none⟩ [] (1/10) = "A"
    ∧ audioDecode ⟨some "B", none⟩ [] (1/10) = "B"
    ∧ audioDecode ⟨none, none⟩ [] (1/10) = ""
    ∧ audioDecode ⟨some "A", none⟩ [] (1/10) ≠ audioDecode ⟨some "B", none⟩ [] (1/10) := by
  refine ⟨by decide, by decide, by decide, by decide⟩

/-! ## Claim C9: robust decode controller (`main.py`) -/

/-- Count of printable-ASCII characters (`main.py` lines 304-308). -/
def printableCount (msg : String) : ℕ :=
  (msg.data.filter (fun ch => decide (32 ≤ ch.toNat ∧ ch.toNat ≤ 126))).length

/-- `is_valid_message` (`main.py` lines 301-309): false on the empty string,
otherwise `printable_chars > len(msg) * 0.7` (in exact arithmetic,
`10 * printable > 7 * len`). -/
def is_valid_message (msg : String) : Bool :=
  if msg.data = [] then false
  else decide (7 * msg.data.length < 10 * printableCount msg)

theorem is_valid_message_iff (msg : String) :
    is_valid_message msg = true
      ↔ 0 < msg.data.length
        ∧ (7 : ℚ)/10 < (printableCount msg : ℚ) / (msg.data.length : ℚ) := by
  rw [is_valid_message]
  split_ifs with hnil
  · simp [hnil]
  · have hpos : 0 < msg.data.length := List.length_pos.mpr hnil
    have hposQ : (0 : ℚ) < (msg.data.length : ℚ) := by exact_mod_cast hpos
    simp only [decide_eq_true_eq]
    constructor
    · intro h
      have hQ : (7:ℚ) * (msg.data.length : ℚ) < 10 * (printableCount msg : ℚ) := by
        exact_mod_cast h
      refine ⟨hpos, ?_⟩
      rw [div_lt_div_iff (by norm_num : (0:ℚ) < 10) hposQ]
      linarith
    · intro ⟨_, h⟩
      rw [div_lt_div_iff (by norm_num : (0:ℚ) < 10) hposQ] at h
      have hQ : (7:ℚ) * (msg.data.length : ℚ) < 10 * (printableCount msg : ℚ) := by
        linarith
      exact_mod_cast hQ

/-- The auto-detection retry loop (`main.py` lines 348-397): iterate the
candidate strengths, skip any within 0.1 of the requested strength, ignore
per-candidate decode failures, and stop at the first nonempty plausible
result. -/
def tryLadder (decodeAt : ℚ → Option String) (strength : ℚ) : List ℚ → Option String
  | [] => none
  | t :: ts =>
    if |t - strength| < 1/10 then tryLadder decodeAt strength ts
    else match decodeAt t with
      | some msg =>
        if msg ≠ "" ∧ is_valid_message msg = true then some msg
        else tryLadder decodeAt strength ts
      | none => tryLadder decodeAt strength ts

/-- `decode_thread` (`main.py` lines 312-419), as the message finally
delivered to `finish_decode` (`none` models both a raising first decode and
the no-message outcome): run the first decode; a nonempty implausible result
is discarded (`message = None`) and the ladder is tried; a blank result also
triggers the ladder but is itself delivered if the ladder fails; a plausible
nonblank result is delivered as is. -/
def decode_thread (decodeAt : ℚ → Option String) (strength : ℚ) (ladder : List ℚ) :
    Option String :=
  match decodeAt strength with
  | none => none
  | some r0 =>
    if r0 ≠ "" ∧ is_valid_message r0 = false then
      tryLadder decodeAt strength ladder
    else if pyStrip r0 = "" then
      match tryLadder decodeAt strength ladder with
      | some msg => some msg
      | none => some r0
    else some r0

/-- C9 (amended): the controller accepts a result exactly when it is nonempty
with printable ratio strictly above 0.7 (exact arithmetic); ladder candidates
within 0.1 of the initial strength are skipped; and when the first attempt
yields a nonempty implausible result and no ladder attempt is plausible, the
controller yields no message — the original first result is discarded, not
returned — and never raises (the controller is a total function; decode
exceptions are absorbed). -/
theorem decode_controller_behaviour (decodeAt : ℚ → Option String) (strength t : ℚ)
    (ladder : List ℚ) (msg r0 : String)
    (hskip : |t - strength| < 1/10)
    (hr0 : decodeAt strength = some r0)
    (hr0ne : r0 ≠ "")
    (hr0bad : is_valid_message r0 = false)
    (hladder : tryLadder decodeAt strength ladder = none) :
    (is_valid_message msg = true
      ↔ 0 < msg.data.length
        ∧ (7 : ℚ)/10 < (printableCount msg : ℚ) / (msg.data.length : ℚ))
    ∧ tryLadder decodeAt strength (t :: ladder) = tryLadder decodeAt strength ladder
    ∧ decode_thread decodeAt strength ladder = none := by
  refine ⟨is_valid_message_iff msg, ?_, ?_⟩
  · rw [tryLadder, if_pos hskip]
  · rw [decode_thread, hr0]
    simp only [if_pos (And.intro hr0ne hr0bad)]
    exact hladder

/-- C9 counterexample: a decoder that always returns the implausible two-byte
string `0x01 0x01`: the first attempt yields it, no ladder attempt is
plausible, and the controller delivers no message instead of the original
first result — refuting the claim that the original result is returned. -/
theorem decode_controller_discards_cex :
    (fun _ : ℚ => some (String.mk [Char.ofNat 1, Char.ofNat 1])) 10
      = some (String.mk [Char.ofNat 1, Char.ofNat 1])
    ∧ decode_thread (fun _ : ℚ => some (String.mk [Char.ofNat 1, Char.ofNat 1])) 10
        [1, 5] = none
    ∧ (none : Option String) ≠ some (String.mk [Char.ofNat 1, Char.ofNat 1]) := by
  refine ⟨rfl, by with_unfolding_all decide, by decide⟩

/-- C9 witness: the controller behaviour theorem applied to that concrete
always-implausible decoder with strength 10 and ladder `[1, 5]`. -/
theorem decode_controller_behaviour_witness :
    decode_thread (fun _ : ℚ => some (String.mk [Char.ofNat 1, Char.ofNat 1])) 10
      [1, 5] = none :=
  (decode_controller_behaviour (fun _ : ℚ => some (String.mk [Char.ofNat 1, Char.ofNat 1]))
    10 10 [1, 5] "x" (String.mk [Char.ofNat 1, Char.ofNat 1])
    (by with_unfolding_all decide) rfl (by decide) (by decide)
    (by with_unfolding_all decide)).2.2

/-! ## Claim C10: single-channel frame effect -/

/-- `np.clip(v, 0, 255).astype(np.uint8)` on a modified channel sample. -/
def clipByte (q : ℚ) : ℕ := (⌊min (max q 0) 255⌋).toNat

/-- `svd_stego.py` lines 80-82: `stego_img = cover_img.copy()` followed by
`stego_img[:, :, 2] = clip(modified_channel)` — only the red channel (BGR
index 2) is written. -/
def svdAssembleStego (cover : ℕ → ℕ → Fin 3 → ℕ) (modified : ℕ → ℕ → ℚ) :
    ℕ → ℕ → Fin 3 → ℕ :=
  fun y x ch => if ch = 2 then clipByte (modified y x) else cover y x ch

/-- `wavelet_stego.py` lines 73-75: only the blue channel (BGR index 0) is
written. -/
def waveletAssembleStego (cover : ℕ → ℕ → Fin 3 → ℕ) (modified : ℕ → ℕ → ℚ) :
    ℕ → ℕ → Fin 3 → ℕ :=
  fun y x ch => if ch = 0 then clipByte (modified y x) else cover y x ch

/-- C10: in the stego array produced before saving, every sample of every
channel other than the embedding channel (red for SVD, blue for Wavelet) is
identical to the cover image's sample, whatever the embedding loop computed
for the modified channel. -/
theorem encode_touches_single_channel (cover : ℕ → ℕ → Fin 3 → ℕ)
    (modified : ℕ → ℕ → ℚ) (y x : ℕ) (ch : Fin 3) :
    (ch ≠ 2 → svdAssembleStego cover modified y x ch = cover y x ch)
    ∧ (ch ≠ 0 → waveletAssembleStego cover modified y x ch = cover y x ch) := by
  constructor
  · intro hch
    rw [svdAssembleStego, if_neg hch]
  · intro hch
    rw [waveletAssembleStego, if_neg hch]

/-- C10 witness: the green channel (index 1) of a concrete pixel is unchanged
by both assemblies. -/
theorem encode_touches_single_channel_witness :
    svdAssembleStego (fun _ _ _ => 3) (fun _ _ => 5) 0 0 1 = 3
    ∧ waveletAssembleStego (fun _ _ _ => 3) (fun _ _ => 5) 0 0 1 = 3 :=
  ⟨(encode_touches_single_channel (fun _ _ _ => 3) (fun _ _ => 5) 0 0 1).1 (by decide),
   (encode_touches_single_channel (fun _ _ _ => 3) (fun _ _ => 5) 0 0 1).2 (by decide)⟩
